import Mathlib

/-!
Shallow embedding of the storage layer of `electrs` (`src/new_index/db.rs`).

Byte strings are modelled as `List Nat`; the RocksDB key-value engine is
modelled as an association list sorted strictly ascending by key
(`storeWF`), which is the engine's documented iteration order.  Engine
I/O calls that the Rust code `unwrap`s are modelled through an `Engine`
record of success flags: a failed engine call (or an explicit `panic!`)
is `Option.none` at the wrapper's result type.
-/

namespace ElectrsDB

/-- Byte strings (`Vec<u8>` / `&[u8]`); each entry is one byte. -/
abbrev Bytes := List Nat

/-- Lexicographic strict order on byte strings, as RocksDB compares keys
(`a.key.cmp(&b.key)` on byte slices). -/
def lexLt : Bytes → Bytes → Bool
  | _, [] => false
  | [], _ :: _ => true
  | a :: as, b :: bs => decide (a < b) || (a == b && lexLt as bs)

/-- Lexicographic non-strict order on byte strings. -/
def lexLe (x y : Bytes) : Bool := !(lexLt y x)

/-- `startsWithB key pfx` is Rust's `key.starts_with(&pfx)` on byte slices. -/
def startsWithB : Bytes → Bytes → Bool
  | _, [] => true
  | [], _ :: _ => false
  | k :: ks, p :: ps => k == p && startsWithB ks ps

/-- The logical content of the RocksDB engine: association list of
(key, value) pairs, kept sorted strictly ascending by key. -/
abbrev Store := List (Bytes × Bytes)

/-- Well-formed store: keys strictly ascending (hence unique), matching
RocksDB's sorted iteration order. -/
def storeWF (s : Store) : Prop :=
  s.Pairwise (fun a b => lexLt a.1 b.1 = true)

instance (s : Store) : Decidable (storeWF s) := by
  unfold storeWF
  infer_instance

/-- Point lookup in the store (`rocksdb::DB::get` semantics on content). -/
def lookupKey : Store → Bytes → Option Bytes
  | [], _ => none
  | (k, v) :: rest, key => if k = key then some v else lookupKey rest key

/-- Insert or overwrite one key, keeping the store sorted
(`rocksdb::DB::put` / one `WriteBatch::put` entry, on content). -/
def insertRow (key value : Bytes) : Store → Store
  | [] => [(key, value)]
  | (k, v) :: rest =>
    if lexLt key k then (key, value) :: (k, v) :: rest
    else if key = k then (key, value) :: rest
    else (k, v) :: insertRow key value rest

/-- `DBRow` of db.rs. -/
structure DBRow where
  key : Bytes
  value : Bytes
deriving DecidableEq, Repr

/-! ### Cursors (`ScanIterator`, `ReverseScanIterator`) -/

/-- `ScanIterator` of db.rs.  `iter` models the underlying forward RocksDB
iterator as the list of rows at and after the current position, in the
engine's ascending key order. -/
structure ScanIterator where
  pfx : Bytes
  iter : List DBRow
  done : Bool
deriving DecidableEq, Repr

/-- `<ScanIterator as Iterator>::next`: returns the yielded item (if any)
together with the iterator's new state.  A key that no longer starts with
the prefix latches `done` (the underlying iterator has already consumed
that row). -/
def ScanIterator.next (s : ScanIterator) : Option DBRow × ScanIterator :=
  if s.done then (none, s)
  else
    match s.iter with
    | [] => (none, s)
    | row :: rest =>
      if startsWithB row.key s.pfx then (some row, { s with iter := rest })
      else (none, { s with iter := rest, done := true })

/-- `ReverseScanIterator` of db.rs.  `iter` models the underlying raw
RocksDB iterator as the list of rows at and before the current position,
in descending key order; the position is valid iff the list is nonempty. -/
structure ReverseScanIterator where
  pfx : Bytes
  iter : List DBRow
  done : Bool
deriving DecidableEq, Repr

/-- `<ReverseScanIterator as Iterator>::next`.  The outer `Option` models
the `.unwrap()` calls on `key()`/`value()`: `none` is a panic.  On a
prefix mismatch the iterator latches `done` without moving; otherwise it
yields the current row and steps backward (`prev`). -/
def ReverseScanIterator.next (s : ReverseScanIterator) :
    Option (Option DBRow × ReverseScanIterator) :=
  if s.done || s.iter.isEmpty then some (none, s)
  else
    match s.iter.head?, s.iter.tail with
    | none, _ => none
    | some row, rest =>
      if startsWithB row.key s.pfx then some (some row, { s with iter := rest })
      else some (none, { s with done := true })

/-- The rows produced by fully consuming a prefix-checked cursor whose
underlying iterator would deliver `l`: rows are taken while their keys
start with `pfxA`. -/
def collectFrom (pfxA : Bytes) : List DBRow → List DBRow
  | [] => []
  | row :: rest =>
    if startsWithB row.key pfxA then row :: collectFrom pfxA rest else []

/-- Fully consuming a `ScanIterator`. -/
def ScanIterator.collect (s : ScanIterator) : List DBRow :=
  if s.done then [] else collectFrom s.pfx s.iter

/-- Fully consuming a `ReverseScanIterator` (along its non-panicking
executions; see `reverse_next_no_panic`). -/
def ReverseScanIterator.collect (s : ReverseScanIterator) : List DBRow :=
  if s.done then [] else collectFrom s.pfx s.iter

/-! ### The `DB` handle -/

/-- The fields of `Config` consumed by db.rs (the full config struct lives
in config.rs; only these two fields are read by this layer). -/
structure Config where
  read_only : Bool
  light_mode : Bool
deriving DecidableEq, Repr

/-- Success flags for the fallible RocksDB engine calls that db.rs
`.unwrap()`s.  A `false` flag makes the corresponding engine call fail,
which the Rust code turns into a panic (modelled as `none`). -/
structure Engine where
  getOk : Bool
  putOk : Bool
  putSyncOk : Bool
  writeOk : Bool
  flushOk : Bool
  setOptionsOk : Bool
deriving DecidableEq, Repr

/-- `DB` of db.rs.  `store` is the logical content of the RocksDB engine;
`autoCompactionsDisabled` is the live engine option set to `true` by
`build_db_options` and cleared by `enable_auto_compaction`.  The `path`
and `db_opts` fields carry no content relevant to the verified claims and
are omitted. -/
structure DB where
  store : Store
  read_only_mode : Bool
  config : Config
  autoCompactionsDisabled : Bool
deriving DecidableEq, Repr

/-- `DBFlush` of db.rs. -/
inductive DBFlush where
  | Disable
  | Enable
deriving DecidableEq, Repr

/-- `rocksdb::WriteOptions` as configured by `DB::write`. -/
structure WriteOptions where
  sync : Bool
  disableWal : Bool
deriving DecidableEq, Repr

/-- `static DB_VERSION: u32 = 1`. -/
def DB_VERSION : Nat := 1

/-- `bincode::serialize_little` of a `u32`: fixed-width 4-byte
little-endian encoding. -/
def serialize_little_u32 (n : Nat) : Bytes :=
  [n % 256, n / 256 % 256, n / 256 ^ 2 % 256, n / 256 ^ 3 % 256]

/-- The reserved sentinel key `b"V"`. -/
def sentinelKey : Bytes := [86]

/-- The expected compatibility marker of `DB::verify_compatibility`:
little-endian `DB_VERSION`, plus one extra byte `1` iff light mode. -/
def compatibilityBytes (config : Config) : Bytes :=
  let b := serialize_little_u32 DB_VERSION
  if config.light_mode then b ++ [1] else b

/-- `DB::get`.  The outer `Option` is the `.unwrap()` on the engine call
(I/O failure panics); the inner `Option` is presence of the key. -/
def DB.get (db : DB) (eng : Engine) (key : Bytes) : Option (Option Bytes) :=
  if eng.getOk then some (lookupKey db.store key) else none

/-- `DB::put`: no-op in read-only mode, else an engine put (whose failure
panics, modelled as `none`). -/
def DB.put (db : DB) (eng : Engine) (key value : Bytes) : Option DB :=
  if db.read_only_mode then some db
  else if eng.putOk then some { db with store := insertRow key value db.store }
  else none

/-- `DB::put_sync`: like `put` but with `WriteOptions::set_sync(true)`. -/
def DB.put_sync (db : DB) (eng : Engine) (key value : Bytes) : Option DB :=
  if db.read_only_mode then some db
  else if eng.putSyncOk then some { db with store := insertRow key value db.store }
  else none

/-- Insertion sort of rows ascending by key: the model of
`rows.sort_unstable_by(|a, b| a.key.cmp(&b.key))` (a sorted permutation;
the source's sort is unstable, so the order of equal keys is
unspecified there). -/
def insertRowSorted (r : DBRow) : List DBRow → List DBRow
  | [] => [r]
  | x :: xs =>
    if lexLe r.key x.key then r :: x :: xs else x :: insertRowSorted r xs

/-- See `insertRowSorted`. -/
def sortRows : List DBRow → List DBRow
  | [] => []
  | r :: rs => insertRowSorted r (sortRows rs)

/-- Applying a `rocksdb::WriteBatch` holding `rows` (in order) to the
store: each `batch.put` inserts/overwrites one key. -/
def applyBatch (rows : List DBRow) (s : Store) : Store :=
  List.foldl (fun acc r => insertRow r.key r.value acc) s rows

/-- The `rocksdb::WriteOptions` built by `DB::write` for a flush policy:
`set_sync(do_flush)` and `disable_wal(!do_flush)`. -/
def writeOptionsFor (flush : DBFlush) : WriteOptions :=
  let doFlush := match flush with
    | DBFlush.Enable => true
    | DBFlush.Disable => false
  { sync := doFlush, disableWal := !doFlush }

/-- `DB::write`: no-op in read-only mode (second component `none`: no
engine call at all), else sorts the rows by key and commits them as one
`WriteBatch` via `write_opt` with the options selected by `flush`.  The
second component reports the `WriteOptions` passed to the engine. -/
def DB.write (db : DB) (eng : Engine) (rows : List DBRow) (flush : DBFlush) :
    Option (DB × Option WriteOptions) :=
  if db.read_only_mode then some (db, none)
  else
    let sorted := sortRows rows
    let opts := writeOptionsFor flush
    if eng.writeOk then
      some ({ db with store := applyBatch sorted db.store }, some opts)
    else none

/-- `DB::flush`: no-op in read-only mode, else the engine flush (persists
buffered writes; no change to logical content). -/
def DB.flush (db : DB) (eng : Engine) : Option DB :=
  if db.read_only_mode then some db
  else if eng.flushOk then some db
  else none

/-- `DB::full_compaction`: no-op in read-only mode, else
`compact_range(None, None)` (file reorganization; no change to logical
content, and the engine call is infallible). -/
def DB.full_compaction (db : DB) : DB :=
  if db.read_only_mode then db else db

/-- `DB::enable_auto_compaction`: no-op in read-only mode, else
`set_options(&[("disable_auto_compactions", "false")])` (fallible). -/
def DB.enable_auto_compaction (db : DB) (eng : Engine) : Option DB :=
  if db.read_only_mode then some db
  else if eng.setOptionsOk then some { db with autoCompactionsDisabled := false }
  else none

/-- The underlying iterator built by `DB::iter_scan`:
`prefix_iterator(pfx)` positions at the first key ≥ `pfx` and moves
forward in ascending key order. -/
def seekGE (s : Store) (target : Bytes) : List DBRow :=
  (s.filter (fun p => lexLe target p.1)).map (fun p => ⟨p.1, p.2⟩)

/-- `DB::iter_scan`. -/
def DB.iter_scan (db : DB) (pfxA : Bytes) : ScanIterator :=
  { pfx := pfxA, iter := seekGE db.store pfxA, done := false }

/-- The underlying raw iterator built by `DB::iter_scan_reverse`:
`seek_for_prev(target)` positions at the greatest key ≤ `target`;
`prev` then walks keys in descending order. -/
def seekForPrev (s : Store) (target : Bytes) : List DBRow :=
  ((s.filter (fun p => lexLe p.1 target)).map (fun p => ⟨p.1, p.2⟩)).reverse

/-- `DB::iter_scan_reverse`. -/
def DB.iter_scan_reverse (db : DB) (pfxA pfxMax : Bytes) : ReverseScanIterator :=
  { pfx := pfxA, iter := seekForPrev db.store pfxMax, done := false }

/-- `DB::verify_compatibility`: computes the expected marker, then reads
the sentinel record; absent → write the marker via `put`, present and
different → `panic!` (`none`), present and equal → continue. -/
def DB.verify_compatibility (db : DB) (eng : Engine) (config : Config) :
    Option DB :=
  let cb := compatibilityBytes config
  match db.get eng sentinelKey with
  | none => none
  | some none => db.put eng sentinelKey cb
  | some (some x) => if x ≠ cb then none else some db

/-- `DB::open` on a directory whose current content is `onDisk`:
builds the handle (with `disable_auto_compactions(true)` from
`build_db_options`) and runs `verify_compatibility`.  Engine-level open
failures (missing directory in read-only mode, lock conflicts) are
outside the store model. -/
def DB.openDB (onDisk : Store) (config : Config) (eng : Engine) : Option DB :=
  let db : DB :=
    { store := onDisk
      read_only_mode := config.read_only
      config := config
      autoCompactionsDisabled := true }
  db.verify_compatibility eng config

/-! ### Concrete sample values (used by witness theorems) -/

/-- An engine where every call succeeds. -/
def engOK : Engine := ⟨true, true, true, true, true, true⟩

/-- An engine where every call fails: reaching any engine call panics. -/
def engFail : Engine := ⟨false, false, false, false, false, false⟩

/-- A read-only, non-light configuration. -/
def roConfig : Config := ⟨true, false⟩

/-- A writable, non-light configuration. -/
def rwConfig : Config := ⟨false, false⟩

/-- The spec's example store: keys `"a:1"`, `"a:2"`, `"a:3"`, `"b:1"`. -/
def sampleStore : Store :=
  [([97, 58, 49], [10]), ([97, 58, 50], [20]), ([97, 58, 51], [30]),
   ([98, 58, 49], [40])]

/-- A read-only handle over `sampleStore`. -/
def roDB : DB := ⟨sampleStore, true, roConfig, true⟩

/-- A writable handle over `sampleStore`. -/
def rwDB : DB := ⟨sampleStore, false, rwConfig, true⟩

/-- A read-only handle over an unmarked (empty) directory. -/
def emptyRoDB : DB := ⟨[], true, roConfig, true⟩

/-- A writable handle over an unmarked (empty) directory. -/
def emptyRwDB : DB := ⟨[], false, rwConfig, true⟩

/-- A small unsorted batch with distinct keys. -/
def sampleRows : List DBRow := [⟨[2], [22]⟩, ⟨[1], [11]⟩]

/-! ### Order facts about `lexLt` / `lexLe` -/

theorem lexLt_nil_right (y : Bytes) : lexLt y [] = false := by
  cases y <;> rfl

theorem lexLt_irrefl (x : Bytes) : lexLt x x = false := by
  induction x with
  | nil => rfl
  | cons a as ih => simp [lexLt, ih]

theorem lexLt_trans : ∀ (x y z : Bytes),
    lexLt x y = true → lexLt y z = true → lexLt x z = true
  | _, y, [], _, h2 => by rw [lexLt_nil_right] at h2; cases h2
  | [], _ :: _, _ :: _, _, _ => rfl
  | [], [], _ :: _, h1, _ => by cases h1
  | _ :: _, [], _, h1, _ => by rw [lexLt_nil_right] at h1; cases h1
  | a :: as, b :: bs, c :: cs, h1, h2 => by
    simp only [lexLt, Bool.or_eq_true, Bool.and_eq_true, decide_eq_true_eq,
      beq_iff_eq] at h1 h2 ⊢
    rcases h1 with h1 | ⟨rfl, h1⟩
    · rcases h2 with h2 | ⟨rfl, h2⟩
      · exact Or.inl (Nat.lt_trans h1 h2)
      · exact Or.inl h1
    · rcases h2 with h2 | ⟨rfl, h2⟩
      · exact Or.inl h2
      · exact Or.inr ⟨rfl, lexLt_trans as bs cs h1 h2⟩

theorem lexLt_trichot : ∀ (x y : Bytes),
    lexLt x y = true ∨ x = y ∨ lexLt y x = true
  | [], [] => Or.inr (Or.inl rfl)
  | [], _ :: _ => Or.inl rfl
  | _ :: _, [] => Or.inr (Or.inr rfl)
  | a :: as, b :: bs => by
    rcases Nat.lt_trichotomy a b with h | h | h
    · exact Or.inl (by simp [lexLt, h])
    · subst h
      rcases lexLt_trichot as bs with h | h | h
      · exact Or.inl (by simp [lexLt, h])
      · exact Or.inr (Or.inl (by rw [h]))
      · exact Or.inr (Or.inr (by simp [lexLt, h]))
    · exact Or.inr (Or.inr (by simp [lexLt, h]))

theorem lexLt_asymm {x y : Bytes} (h : lexLt x y = true) : lexLt y x = false := by
  cases hyx : lexLt y x with
  | false => rfl
  | true =>
    have := lexLt_trans x y x h hyx
    rw [lexLt_irrefl] at this
    cases this

theorem lexLe_refl (x : Bytes) : lexLe x x = true := by
  simp [lexLe, lexLt_irrefl]

theorem lexLe_of_lt {x y : Bytes} (h : lexLt x y = true) : lexLe x y = true := by
  simp [lexLe, lexLt_asymm h]

theorem lexLe_iff_not_lt {x y : Bytes} : lexLe x y = true ↔ lexLt y x = false := by
  simp [lexLe]

theorem lexLe_of_not_le {x y : Bytes} (h : lexLe x y = false) : lexLe y x = true := by
  simp only [lexLe, Bool.not_eq_false'] at h
  exact lexLe_of_lt h

theorem lexLe_total (x y : Bytes) : lexLe x y = true ∨ lexLe y x = true := by
  cases h : lexLe x y with
  | true => exact Or.inl rfl
  | false => exact Or.inr (lexLe_of_not_le h)

theorem lexLe_trans {x y z : Bytes}
    (h1 : lexLe x y = true) (h2 : lexLe y z = true) : lexLe x z = true := by
  rw [lexLe_iff_not_lt] at h1 h2 ⊢
  cases hzx : lexLt z x with
  | false => rfl
  | true =>
    rcases lexLt_trichot z y with h | rfl | h
    · rw [h2] at h; cases h
    · rw [hzx] at h1; cases h1
    · have := lexLt_trans y z x h hzx
      rw [h1] at this; cases this

theorem lexLe_antisymm {x y : Bytes}
    (h1 : lexLe x y = true) (h2 : lexLe y x = true) : x = y := by
  rw [lexLe_iff_not_lt] at h1 h2
  rcases lexLt_trichot x y with h | rfl | h
  · rw [h2] at h; cases h
  · rfl
  · rw [h1] at h; cases h

/-- A byte string is lexicographically ≥ any of its own prefixes. -/
theorem lexLe_of_startsWith : ∀ (y p : Bytes),
    startsWithB y p = true → lexLe p y = true
  | y, [], _ => by simp [lexLe, lexLt_nil_right]
  | [], _ :: _, h => by cases h
  | k :: ks, p :: ps, h => by
    simp only [startsWithB, Bool.and_eq_true, beq_iff_eq] at h
    obtain ⟨rfl, h2⟩ := h
    have ih := lexLe_of_startsWith ks ps h2
    rw [lexLe_iff_not_lt] at ih ⊢
    simp [lexLt, ih]

/-- The strings extending a given prefix form an interval of the
lexicographic order: anything between the prefix itself and some
extension of it is itself an extension. -/
theorem startsWith_interval : ∀ (p x y : Bytes),
    lexLe p x = true → lexLe x y = true → startsWithB y p = true →
    startsWithB x p = true
  | [], x, _, _, _, _ => by cases x <;> rfl
  | _ :: _, _, [], _, _, h3 => by cases h3
  | p :: ps, [], b :: bs, h1, _, _ => by
    rw [lexLe_iff_not_lt] at h1
    cases h1
  | p :: ps, a :: as, b :: bs, h1, h2, h3 => by
    simp only [startsWithB, Bool.and_eq_true, beq_iff_eq] at h3 ⊢
    obtain ⟨rfl, h3'⟩ := h3
    rw [lexLe_iff_not_lt] at h1 h2
    have hap : a = b := by
      rcases Nat.lt_trichotomy a b with h | h | h
      · exact absurd h1 (by simp [lexLt, h])
      · exact h
      · exact absurd h2 (by simp [lexLt, h])
    subst hap
    have hasps : lexLt as ps = false := by
      cases hl : lexLt as ps with
      | false => rfl
      | true => exact absurd h1 (by simp [lexLt, hl])
    have hbsas : lexLt bs as = false := by
      cases hl : lexLt bs as with
      | false => rfl
      | true => exact absurd h2 (by simp [lexLt, hl])
    exact ⟨rfl, startsWith_interval ps as bs (lexLe_iff_not_lt.mpr hasps)
      (lexLe_iff_not_lt.mpr hbsas) h3'⟩

/-! ### Store lemmas: lookup after insert, batch application -/

theorem lookupKey_insertRow_self (k v : Bytes) :
    ∀ (s : Store), lookupKey (insertRow k v s) k = some v
  | [] => by simp [insertRow, lookupKey]
  | (a, b) :: rest => by
    by_cases hlt : lexLt k a = true
    · simp [insertRow, hlt, lookupKey]
    · by_cases heq : k = a
      · simp [insertRow, hlt, heq, lookupKey, lexLt_irrefl]
      · have hne : a ≠ k := fun h => heq h.symm
        simp [insertRow, hlt, heq, lookupKey, hne, lookupKey_insertRow_self k v rest]

theorem lookupKey_insertRow_ne (k v q : Bytes) (hne : q ≠ k) :
    ∀ (s : Store), lookupKey (insertRow k v s) q = lookupKey s q
  | [] => by
    have : k ≠ q := fun h => hne h.symm
    simp [insertRow, lookupKey, this]
  | (a, b) :: rest => by
    have hkq : k ≠ q := fun h => hne h.symm
    by_cases hlt : lexLt k a = true
    · simp [insertRow, hlt, lookupKey, hkq]
    · by_cases heq : k = a
      · subst heq
        simp [insertRow, hlt, lookupKey, hkq]
      · simp [insertRow, hlt, heq, lookupKey, lookupKey_insertRow_ne k v q hne rest]

theorem applyBatch_lookup_notmem :
    ∀ (rows : List DBRow) (s : Store) (k : Bytes),
      (∀ r ∈ rows, r.key ≠ k) → lookupKey (applyBatch rows s) k = lookupKey s k
  | [], _, _, _ => rfl
  | x :: rest, s, k, h => by
    have hx : k ≠ x.key := fun hk => h x (List.mem_cons_self x rest) hk.symm
    calc lookupKey (applyBatch (x :: rest) s) k
        = lookupKey (applyBatch rest (insertRow x.key x.value s)) k := rfl
      _ = lookupKey (insertRow x.key x.value s) k :=
          applyBatch_lookup_notmem rest _ k (fun r hr => h r (List.mem_cons_of_mem x hr))
      _ = lookupKey s k := lookupKey_insertRow_ne x.key x.value k hx s

theorem applyBatch_lookup_mem :
    ∀ (rows : List DBRow) (s : Store) (r : DBRow),
      r ∈ rows → (rows.map DBRow.key).Nodup →
      lookupKey (applyBatch rows s) r.key = some r.value
  | x :: rest, s, r, hmem, hnd => by
    rw [List.map_cons, List.nodup_cons] at hnd
    rcases List.mem_cons.mp hmem with rfl | hmem'
    · have hkeys : ∀ q ∈ rest, q.key ≠ r.key := by
        intro q hq hqk
        exact hnd.1 (hqk ▸ List.mem_map_of_mem DBRow.key hq)
      calc lookupKey (applyBatch (r :: rest) s) r.key
          = lookupKey (applyBatch rest (insertRow r.key r.value s)) r.key := rfl
        _ = lookupKey (insertRow r.key r.value s) r.key :=
            applyBatch_lookup_notmem rest _ r.key hkeys
        _ = some r.value := lookupKey_insertRow_self r.key r.value s
    · exact applyBatch_lookup_mem rest _ r hmem' hnd.2

/-! ### Sorting lemmas -/

theorem insertRowSorted_perm (r : DBRow) :
    ∀ (l : List DBRow), (insertRowSorted r l).Perm (r :: l)
  | [] => List.Perm.refl _
  | x :: xs => by
    by_cases h : lexLe r.key x.key = true
    · simp [insertRowSorted, h]
    · simp only [insertRowSorted, if_neg h]
      exact ((insertRowSorted_perm r xs).cons x).trans (List.Perm.swap r x xs)

theorem sortRows_perm : ∀ (l : List DBRow), (sortRows l).Perm l
  | [] => List.Perm.refl _
  | r :: rs => (insertRowSorted_perm r (sortRows rs)).trans ((sortRows_perm rs).cons r)

theorem mem_insertRowSorted {y r : DBRow} {l : List DBRow} :
    y ∈ insertRowSorted r l ↔ y = r ∨ y ∈ l := by
  rw [(insertRowSorted_perm r l).mem_iff, List.mem_cons]

theorem insertRowSorted_pairwise (r : DBRow) :
    ∀ (l : List DBRow), l.Pairwise (fun a b => lexLe a.key b.key = true) →
      (insertRowSorted r l).Pairwise (fun a b => lexLe a.key b.key = true)
  | [], _ => by simp [insertRowSorted]
  | x :: xs, hp => by
    rcases List.pairwise_cons.mp hp with ⟨hx, hxs⟩
    by_cases h : lexLe r.key x.key = true
    · simp only [insertRowSorted, if_pos h]
      refine List.pairwise_cons.mpr ⟨?_, hp⟩
      intro y hy
      rcases List.mem_cons.mp hy with rfl | hy'
      · exact h
      · exact lexLe_trans h (hx y hy')
    · simp only [insertRowSorted, if_neg h]
      refine List.pairwise_cons.mpr ⟨?_, insertRowSorted_pairwise r xs hxs⟩
      intro y hy
      rcases mem_insertRowSorted.mp hy with rfl | hy'
      · exact lexLe_of_not_le (Bool.not_eq_true _ ▸ h : lexLe y.key x.key = false)
      · exact hx y hy'

theorem sortRows_pairwise :
    ∀ (l : List DBRow), (sortRows l).Pairwise (fun a b => lexLe a.key b.key = true)
  | [] => List.Pairwise.nil
  | r :: rs => insertRowSorted_pairwise r (sortRows rs) (sortRows_pairwise rs)

/-! ### Cursor collection lemmas -/

/-- `collect` is what repeatedly calling `ScanIterator.next` yields. -/
theorem ScanIterator.scan_collect_eq_next (s : ScanIterator) :
    s.collect = (match s.next with
      | (none, _) => []
      | (some r, s') => r :: s'.collect) := by
  by_cases hd : s.done = true
  · simp [ScanIterator.collect, ScanIterator.next, hd]
  · cases hiter : s.iter with
    | nil => simp [ScanIterator.collect, ScanIterator.next, hd, hiter, collectFrom]
    | cons row rest =>
      by_cases hs : startsWithB row.key s.pfx = true
      · simp [ScanIterator.collect, ScanIterator.next, hd, hiter, hs, collectFrom]
      · simp [ScanIterator.collect, ScanIterator.next, hd, hiter, hs, collectFrom]

/-- `collect` is what repeatedly calling `ReverseScanIterator.next`
yields (along non-panicking executions). -/
theorem ReverseScanIterator.rev_collect_eq_next (s : ReverseScanIterator) :
    s.collect = (match s.next with
      | some (some r, s') => r :: s'.collect
      | _ => []) := by
  by_cases hd : s.done = true
  · simp [ReverseScanIterator.collect, ReverseScanIterator.next, hd]
  · cases hiter : s.iter with
    | nil => simp [ReverseScanIterator.collect, ReverseScanIterator.next, hd, hiter, collectFrom]
    | cons row rest =>
      by_cases hs : startsWithB row.key s.pfx = true
      · simp [ReverseScanIterator.collect, ReverseScanIterator.next, hd, hiter, hs, collectFrom]
      · simp [ReverseScanIterator.collect, ReverseScanIterator.next, hd, hiter, hs,
          collectFrom, ReverseScanIterator.collect]

theorem collectFrom_sublist (p : Bytes) :
    ∀ (l : List DBRow), List.Sublist (collectFrom p l) l
  | [] => List.Sublist.refl []
  | x :: xs => by
    by_cases h : startsWithB x.key p = true
    · simpa [collectFrom, h] using (collectFrom_sublist p xs).cons₂ x
    · simp [collectFrom, h]

theorem mem_collectFrom {p : Bytes} :
    ∀ {l : List DBRow} {r : DBRow}, r ∈ collectFrom p l → startsWithB r.key p = true
  | x :: xs, r, hr => by
    by_cases h : startsWithB x.key p = true
    · rw [collectFrom, if_pos h] at hr
      rcases List.mem_cons.mp hr with rfl | hr'
      · exact h
      · exact mem_collectFrom hr'
    · rw [collectFrom, if_neg h] at hr
      cases hr

/-- When the matching rows form a downward-closed segment of `l` (no
non-matching row precedes a matching one), the one-pass cursor collects
exactly the matching rows. -/
theorem collectFrom_eq_filter (p : Bytes) :
    ∀ (l : List DBRow),
      l.Pairwise (fun a b => startsWithB b.key p = true → startsWithB a.key p = true) →
      collectFrom p l = l.filter (fun r => startsWithB r.key p)
  | [], _ => rfl
  | x :: xs, hp => by
    rcases List.pairwise_cons.mp hp with ⟨hx, hxs⟩
    by_cases h : startsWithB x.key p = true
    · simp [collectFrom, h, List.filter_cons, collectFrom_eq_filter p xs hxs]
    · have hnil : xs.filter (fun r => startsWithB r.key p) = [] :=
        List.filter_eq_nil_iff.mpr (fun a ha hpa => h (hx a ha (by simpa using hpa)))
      simp [collectFrom, h, List.filter_cons, hnil]

theorem collectFrom_head {p : Bytes} {l : List DBRow} {r : DBRow}
    (hh : l.head? = some r) (hs : startsWithB r.key p = true) :
    (collectFrom p l).head? = some r := by
  cases l with
  | nil => cases hh
  | cons x xs =>
    rw [List.head?_cons, Option.some_inj] at hh
    subst hh
    simp [collectFrom, hs]

/-! ### The iterators built by `iter_scan` / `iter_scan_reverse` -/

theorem seekGE_pairwise {s : Store} (t : Bytes) (h : storeWF s) :
    (seekGE s t).Pairwise (fun a b => lexLt a.key b.key = true) := by
  rw [seekGE, List.pairwise_map]
  exact h.filter _

theorem mem_seekGE {s : Store} {t : Bytes} {r : DBRow} :
    r ∈ seekGE s t ↔ (r.key, r.value) ∈ s ∧ lexLe t r.key = true := by
  rw [seekGE]
  constructor
  · intro hr
    rcases List.mem_map.mp hr with ⟨kv, hkv, rfl⟩
    rcases List.mem_filter.mp hkv with ⟨hmem, hle⟩
    exact ⟨hmem, by simpa using hle⟩
  · intro ⟨hmem, hle⟩
    refine List.mem_map.mpr ⟨(r.key, r.value), List.mem_filter.mpr ⟨hmem, by simpa using hle⟩, rfl⟩

theorem seekForPrev_pairwise {s : Store} (t : Bytes) (h : storeWF s) :
    (seekForPrev s t).Pairwise (fun a b => lexLt b.key a.key = true) := by
  rw [seekForPrev, List.pairwise_reverse, List.pairwise_map]
  exact h.filter _

theorem mem_seekForPrev {s : Store} {t : Bytes} {r : DBRow} :
    r ∈ seekForPrev s t ↔ (r.key, r.value) ∈ s ∧ lexLe r.key t = true := by
  rw [seekForPrev, List.mem_reverse]
  constructor
  · intro hr
    rcases List.mem_map.mp hr with ⟨kv, hkv, rfl⟩
    rcases List.mem_filter.mp hkv with ⟨hmem, hle⟩
    exact ⟨hmem, by simpa using hle⟩
  · intro ⟨hmem, hle⟩
    refine List.mem_map.mpr ⟨(r.key, r.value), List.mem_filter.mpr ⟨hmem, by simpa using hle⟩, rfl⟩

/-- In a strictly ascending row list, a row that bounds every key from
above is the last row. -/
theorem pairwise_max_getLast? :
    ∀ (l : List DBRow), l.Pairwise (fun a b => lexLt a.key b.key = true) →
      ∀ r ∈ l, (∀ x ∈ l, lexLe x.key r.key = true) → l.getLast? = some r
  | [x], _, r, hr, _ => by
    rcases List.mem_singleton.mp hr with rfl
    rfl
  | x :: y :: rest, hp, r, hr, hmax => by
    rcases List.pairwise_cons.mp hp with ⟨hx, hp'⟩
    rcases List.mem_cons.mp hr with rfl | hr'
    · exfalso
      have hlt : lexLt r.key y.key = true := hx y (List.mem_cons_self y rest)
      have hle : lexLe y.key r.key = true :=
        hmax y (List.mem_cons_of_mem r (List.mem_cons_self y rest))
      rw [lexLe_iff_not_lt, hlt] at hle
      cases hle
    · rw [List.getLast?_cons_cons]
      exact pairwise_max_getLast? (y :: rest) hp' r hr'
        (fun x hx' => hmax x (List.mem_cons_of_mem _ hx'))

/-! ### Exhaustion latching -/

theorem scan_next_none_fix {s t : ScanIterator} (h : s.next = (none, t)) :
    t.next = (none, t) := by
  rw [ScanIterator.next] at h
  by_cases hd : s.done = true
  · rw [if_pos hd] at h
    injection h with _ h2
    subst h2
    rw [ScanIterator.next, if_pos hd]
  · rw [if_neg hd] at h
    cases hiter : s.iter with
    | nil =>
      rw [hiter] at h
      injection h with _ h2
      subst h2
      rw [ScanIterator.next, if_neg hd, hiter]
    | cons row rest =>
      rw [hiter] at h
      dsimp only at h
      by_cases hs : startsWithB row.key s.pfx = true
      · rw [if_pos hs] at h
        injection h with h1 _
        exact absurd h1 (by simp)
      · rw [if_neg hs] at h
        injection h with _ h2
        subst h2
        simp [ScanIterator.next]

theorem rev_next_none_fix {s t : ReverseScanIterator}
    (h : s.next = some (none, t)) : t.next = some (none, t) := by
  rw [ReverseScanIterator.next] at h
  by_cases hd : (s.done || s.iter.isEmpty) = true
  · rw [if_pos hd] at h
    injection h with h1
    injection h1 with _ h2
    subst h2
    rw [ReverseScanIterator.next, if_pos hd]
  · rw [if_neg hd] at h
    cases hiter : s.iter with
    | nil =>
      exfalso
      apply hd
      rw [hiter]
      simp
    | cons row rest =>
      rw [hiter] at h
      dsimp only [List.head?_cons, List.tail_cons] at h
      by_cases hs : startsWithB row.key s.pfx = true
      · rw [if_pos hs] at h
        injection h with h1
        injection h1 with h1' _
        exact absurd h1' (by simp)
      · rw [if_neg hs] at h
        injection h with h1
        injection h1 with _ h2
        subst h2
        simp [ReverseScanIterator.next]

/-! ## Claim theorems -/

/-- C1 counterexample: on a read-only handle over a directory whose
sentinel record is absent, `verify_compatibility` returns successfully
but does NOT write the expected marker (the internal `put` is a read-only
no-op), contradicting the claim's unconditional "if the sentinel record
is absent it writes the expected marker". -/
theorem verify_compatibility_readonly_counterexample :
    DB.verify_compatibility emptyRoDB engOK roConfig = some emptyRoDB ∧
    ¬ lookupKey emptyRoDB.store sentinelKey = some (compatibilityBytes roConfig) := by
  decide

/-- C1 (amended): `verify_compatibility` computes the expected marker as
the fixed-width little-endian encoding of `DB_VERSION` with exactly one
extra byte appended iff `config.light_mode`; if the sentinel record is
absent it writes the expected marker provided the handle is writable (on
a read-only handle the write is a no-op); if a record is present and
differs it fails fatally (panic); if it matches it continues silently
with the store unchanged. -/
theorem verify_compatibility_cases (db : DB) (eng : Engine) (config : Config)
    (hg : eng.getOk = true) :
    compatibilityBytes config =
      serialize_little_u32 DB_VERSION ++ (if config.light_mode then [1] else []) ∧
    (serialize_little_u32 DB_VERSION).length = 4 ∧
    (lookupKey db.store sentinelKey = none → db.read_only_mode = false →
      eng.putOk = true →
      db.verify_compatibility eng config =
        some { db with
          store := insertRow sentinelKey (compatibilityBytes config) db.store } ∧
      (∀ d, db.verify_compatibility eng config = some d →
        lookupKey d.store sentinelKey = some (compatibilityBytes config))) ∧
    (∀ x, lookupKey db.store sentinelKey = some x →
      x ≠ compatibilityBytes config →
      db.verify_compatibility eng config = none) ∧
    (∀ x, lookupKey db.store sentinelKey = some x →
      x = compatibilityBytes config →
      db.verify_compatibility eng config = some db) := by
  refine ⟨?_, rfl, ?_, ?_, ?_⟩
  · cases hl : config.light_mode <;> simp [compatibilityBytes, hl]
  · intro habs hrw hput
    have hver : db.verify_compatibility eng config =
        some { db with
          store := insertRow sentinelKey (compatibilityBytes config) db.store } := by
      simp [DB.verify_compatibility, DB.get, hg, habs, DB.put, hrw, hput]
    refine ⟨hver, ?_⟩
    intro d hd
    rw [hver, Option.some_inj] at hd
    subst hd
    exact lookupKey_insertRow_self sentinelKey (compatibilityBytes config) db.store
  · intro x hx hne
    simp [DB.verify_compatibility, DB.get, hg, hx, hne]
  · intro x hx heq
    simp [DB.verify_compatibility, DB.get, hg, hx, heq]

/-- Witness for C1's amended theorem at a writable handle over an
unmarked directory. -/
theorem verify_compatibility_cases_witness :
    engOK.getOk = true ∧
    (compatibilityBytes rwConfig =
      serialize_little_u32 DB_VERSION ++ (if rwConfig.light_mode then [1] else []) ∧
    (serialize_little_u32 DB_VERSION).length = 4 ∧
    (lookupKey emptyRwDB.store sentinelKey = none → emptyRwDB.read_only_mode = false →
      engOK.putOk = true →
      emptyRwDB.verify_compatibility engOK rwConfig =
        some { emptyRwDB with
          store := insertRow sentinelKey (compatibilityBytes rwConfig) emptyRwDB.store } ∧
      (∀ d, emptyRwDB.verify_compatibility engOK rwConfig = some d →
        lookupKey d.store sentinelKey = some (compatibilityBytes rwConfig))) ∧
    (∀ x, lookupKey emptyRwDB.store sentinelKey = some x →
      x ≠ compatibilityBytes rwConfig →
      emptyRwDB.verify_compatibility engOK rwConfig = none) ∧
    (∀ x, lookupKey emptyRwDB.store sentinelKey = some x →
      x = compatibilityBytes rwConfig →
      emptyRwDB.verify_compatibility engOK rwConfig = some emptyRwDB)) :=
  ⟨rfl, verify_compatibility_cases emptyRwDB engOK rwConfig rfl⟩

/-- C2: on a read-only handle, `put`, `put_sync`, `write`, `flush`,
`full_compaction` and `enable_auto_compaction` return normally (no panic,
regardless of engine behavior — no engine call is even issued) and leave
the store and all handle state unchanged. -/
theorem readonly_ops_noop (db : DB) (eng : Engine) (k v : Bytes)
    (rows : List DBRow) (fl : DBFlush) (hro : db.read_only_mode = true) :
    db.put eng k v = some db ∧
    db.put_sync eng k v = some db ∧
    db.write eng rows fl = some (db, none) ∧
    db.flush eng = some db ∧
    db.full_compaction = db ∧
    db.enable_auto_compaction eng = some db := by
  simp [DB.put, DB.put_sync, DB.write, DB.flush, DB.full_compaction,
    DB.enable_auto_compaction, hro]

/-- Witness for C2: a read-only handle and an engine whose every call
would fail. -/
theorem readonly_ops_noop_witness :
    roDB.read_only_mode = true ∧
    (roDB.put engFail [3] [4] = some roDB ∧
    roDB.put_sync engFail [3] [4] = some roDB ∧
    roDB.write engFail sampleRows DBFlush.Enable = some (roDB, none) ∧
    roDB.flush engFail = some roDB ∧
    roDB.full_compaction = roDB ∧
    roDB.enable_auto_compaction engFail = some roDB) :=
  ⟨rfl, readonly_ops_noop roDB engFail [3] [4] sampleRows DBFlush.Enable rfl⟩

/-- C3: on a writable handle, `write` sorts the batch ascending by key
(a sorted permutation of the input) and commits every row as one unit:
afterwards every batch key maps to its batch value (distinct keys) and
every other key is untouched. -/
theorem write_sorts_and_commits_batch (db : DB) (eng : Engine)
    (rows : List DBRow) (fl : DBFlush)
    (hrw : db.read_only_mode = false) (hok : eng.writeOk = true)
    (hnd : (rows.map DBRow.key).Nodup) :
    ∃ db' wo, db.write eng rows fl = some (db', some wo) ∧
      (sortRows rows).Perm rows ∧
      (sortRows rows).Pairwise (fun a b => lexLe a.key b.key = true) ∧
      (∀ r ∈ rows, lookupKey db'.store r.key = some r.value) ∧
      (∀ k, (∀ r ∈ rows, r.key ≠ k) →
        lookupKey db'.store k = lookupKey db.store k) := by
  refine ⟨{ db with store := applyBatch (sortRows rows) db.store },
    writeOptionsFor fl, ?_, sortRows_perm rows, sortRows_pairwise rows, ?_, ?_⟩
  · simp [DB.write, hrw, hok]
  · intro r hr
    have hr' : r ∈ sortRows rows := (sortRows_perm rows).mem_iff.mpr hr
    have hnd' : ((sortRows rows).map DBRow.key).Nodup :=
      (((sortRows_perm rows).map DBRow.key).nodup_iff).mpr hnd
    exact applyBatch_lookup_mem (sortRows rows) db.store r hr' hnd'
  · intro k hk
    exact applyBatch_lookup_notmem (sortRows rows) db.store k
      (fun r hr => hk r ((sortRows_perm rows).mem_iff.mp hr))

/-- Witness for C3 at a concrete unsorted two-row batch. -/
theorem write_sorts_and_commits_batch_witness :
    (rwDB.read_only_mode = false ∧ engOK.writeOk = true ∧
      (sampleRows.map DBRow.key).Nodup) ∧
    (∃ db' wo, rwDB.write engOK sampleRows DBFlush.Disable = some (db', some wo) ∧
      (sortRows sampleRows).Perm sampleRows ∧
      (sortRows sampleRows).Pairwise (fun a b => lexLe a.key b.key = true) ∧
      (∀ r ∈ sampleRows, lookupKey db'.store r.key = some r.value) ∧
      (∀ k, (∀ r ∈ sampleRows, r.key ≠ k) →
        lookupKey db'.store k = lookupKey rwDB.store k)) :=
  ⟨⟨rfl, rfl, by decide⟩,
    write_sorts_and_commits_batch rwDB engOK sampleRows DBFlush.Disable rfl rfl
      (by decide)⟩

/-- C4: the `flush` argument of `write` only selects the durability of
that one batch: `Enable` passes `sync = true` with the WAL engaged,
`Disable` passes `sync = false` with the WAL bypassed; the resulting
handle (including its retained config) is identical in both cases and no
handle-wide setting changes. -/
theorem write_flush_options (db : DB) (eng : Engine) (rows : List DBRow)
    (hrw : db.read_only_mode = false) (hok : eng.writeOk = true) :
    ∃ db',
      db.write eng rows DBFlush.Enable = some (db', some ⟨true, false⟩) ∧
      db.write eng rows DBFlush.Disable = some (db', some ⟨false, true⟩) ∧
      db'.read_only_mode = db.read_only_mode ∧
      db'.config = db.config ∧
      db'.autoCompactionsDisabled = db.autoCompactionsDisabled := by
  refine ⟨{ db with store := applyBatch (sortRows rows) db.store },
    ?_, ?_, rfl, rfl, rfl⟩ <;>
    simp [DB.write, hrw, hok, writeOptionsFor]

/-- Witness for C4 at a concrete writable handle and batch. -/
theorem write_flush_options_witness :
    (rwDB.read_only_mode = false ∧ engOK.writeOk = true) ∧
    (∃ db',
      rwDB.write engOK sampleRows DBFlush.Enable = some (db', some ⟨true, false⟩) ∧
      rwDB.write engOK sampleRows DBFlush.Disable = some (db', some ⟨false, true⟩) ∧
      db'.read_only_mode = rwDB.read_only_mode ∧
      db'.config = rwDB.config ∧
      db'.autoCompactionsDisabled = rwDB.autoCompactionsDisabled) :=
  ⟨⟨rfl, rfl⟩, write_flush_options rwDB engOK sampleRows rfl rfl⟩

/-- C5: fully consuming `iter_scan(pfx)` over a well-formed store yields
rows in strictly ascending key order, every yielded key starts with the
prefix, and every stored row whose key starts with the prefix appears. -/
theorem iter_scan_spec (db : DB) (pfxA : Bytes) (hwf : storeWF db.store) :
    (db.iter_scan pfxA).collect.Pairwise (fun a b => lexLt a.key b.key = true) ∧
    (∀ r ∈ (db.iter_scan pfxA).collect, startsWithB r.key pfxA = true) ∧
    (∀ kv ∈ db.store, startsWithB kv.1 pfxA = true →
      (⟨kv.1, kv.2⟩ : DBRow) ∈ (db.iter_scan pfxA).collect) := by
  have hc : (db.iter_scan pfxA).collect = collectFrom pfxA (seekGE db.store pfxA) := by
    simp [DB.iter_scan, ScanIterator.collect]
  refine ⟨?_, ?_, ?_⟩
  · rw [hc]
    exact (seekGE_pairwise pfxA hwf).sublist (collectFrom_sublist pfxA _)
  · intro r hr
    rw [hc] at hr
    exact mem_collectFrom hr
  · intro kv hkv hs
    rw [hc, collectFrom_eq_filter]
    · exact List.mem_filter.mpr
        ⟨mem_seekGE.mpr ⟨hkv, lexLe_of_startsWith kv.1 pfxA hs⟩, by simpa using hs⟩
    · refine (seekGE_pairwise pfxA hwf).imp_of_mem ?_
      intro a b ha hb hab hsb
      exact startsWith_interval pfxA a.key b.key (mem_seekGE.mp ha).2
        (lexLe_of_lt hab) hsb

/-- Witness for C5 on the spec's example store and prefix `"a:"`. -/
theorem iter_scan_spec_witness :
    storeWF rwDB.store ∧
    ((rwDB.iter_scan [97, 58]).collect.Pairwise
        (fun a b => lexLt a.key b.key = true) ∧
    (∀ r ∈ (rwDB.iter_scan [97, 58]).collect, startsWithB r.key [97, 58] = true) ∧
    (∀ kv ∈ rwDB.store, startsWithB kv.1 [97, 58] = true →
      (⟨kv.1, kv.2⟩ : DBRow) ∈ (rwDB.iter_scan [97, 58]).collect)) :=
  ⟨by decide, iter_scan_spec rwDB [97, 58] (by decide)⟩

/-- C6: fully consuming `iter_scan_reverse(pfx, pfx_max)` over a
well-formed store yields rows in strictly descending key order, every
yielded key is ≤ `pfx_max` and starts with the prefix, and the greatest
stored key ≤ `pfx_max` is yielded first whenever it exists and starts
with the prefix (so the upper bound itself is included when present and
matching). -/
theorem iter_scan_reverse_spec (db : DB) (pfxA pfxMax : Bytes)
    (hwf : storeWF db.store) :
    (db.iter_scan_reverse pfxA pfxMax).collect.Pairwise
      (fun a b => lexLt b.key a.key = true) ∧
    (∀ r ∈ (db.iter_scan_reverse pfxA pfxMax).collect,
      lexLe r.key pfxMax = true ∧ startsWithB r.key pfxA = true) ∧
    (∀ k v, (k, v) ∈ db.store → lexLe k pfxMax = true →
      (∀ k' v', (k', v') ∈ db.store → lexLe k' pfxMax = true → lexLe k' k = true) →
      startsWithB k pfxA = true →
      (db.iter_scan_reverse pfxA pfxMax).collect.head? = some ⟨k, v⟩) := by
  have hc : (db.iter_scan_reverse pfxA pfxMax).collect =
      collectFrom pfxA (seekForPrev db.store pfxMax) := by
    simp [DB.iter_scan_reverse, ReverseScanIterator.collect]
  refine ⟨?_, ?_, ?_⟩
  · rw [hc]
    exact (seekForPrev_pairwise pfxMax hwf).sublist (collectFrom_sublist pfxA _)
  · intro r hr
    rw [hc] at hr
    have hmem : r ∈ seekForPrev db.store pfxMax :=
      (collectFrom_sublist pfxA _).subset hr
    exact ⟨(mem_seekForPrev.mp hmem).2, mem_collectFrom hr⟩
  · intro k v hmem hle hmax hs
    rw [hc]
    refine collectFrom_head ?_ hs
    rw [seekForPrev, List.head?_reverse]
    refine pairwise_max_getLast? _ ?_ ⟨k, v⟩ ?_ ?_
    · rw [List.pairwise_map]
      exact hwf.filter _
    · exact List.mem_map.mpr
        ⟨(k, v), List.mem_filter.mpr ⟨hmem, by simpa using hle⟩, rfl⟩
    · intro x hx
      rcases List.mem_map.mp hx with ⟨kv, hkv, rfl⟩
      rcases List.mem_filter.mp hkv with ⟨hm, hb⟩
      exact hmax kv.1 kv.2 hm (by simpa using hb)

/-- Witness for C6 on the spec's example store, prefix `"a:"` and upper
bound `"a:\xff"`. -/
theorem iter_scan_reverse_spec_witness :
    storeWF rwDB.store ∧
    ((rwDB.iter_scan_reverse [97, 58] [97, 58, 255]).collect.Pairwise
      (fun a b => lexLt b.key a.key = true) ∧
    (∀ r ∈ (rwDB.iter_scan_reverse [97, 58] [97, 58, 255]).collect,
      lexLe r.key [97, 58, 255] = true ∧ startsWithB r.key [97, 58] = true) ∧
    (∀ k v, (k, v) ∈ rwDB.store → lexLe k [97, 58, 255] = true →
      (∀ k' v', (k', v') ∈ rwDB.store → lexLe k' [97, 58, 255] = true →
        lexLe k' k = true) →
      startsWithB k [97, 58] = true →
      (rwDB.iter_scan_reverse [97, 58] [97, 58, 255]).collect.head? =
        some ⟨k, v⟩)) :=
  ⟨by decide, iter_scan_reverse_spec rwDB [97, 58] [97, 58, 255] (by decide)⟩

/-- C7: exhaustion latches permanently for both cursors: whenever an
advance yields nothing, the resulting state is a fixpoint on which every
further advance again yields nothing, whatever rows remain underneath. -/
theorem cursor_exhaustion_latches :
    (∀ (s t : ScanIterator), s.next = (none, t) → t.next = (none, t)) ∧
    (∀ (s t : ReverseScanIterator), s.next = some (none, t) →
      t.next = some (none, t)) :=
  ⟨fun _ _ h => scan_next_none_fix h, fun _ _ h => rev_next_none_fix h⟩

/-- Witness for C7: cursors that just latched on a prefix mismatch. -/
theorem cursor_exhaustion_latches_witness :
    ScanIterator.next ⟨[1], [], true⟩ = (none, ⟨[1], [], true⟩) ∧
    ReverseScanIterator.next ⟨[1], [⟨[2], [3]⟩], true⟩ =
      some (none, ⟨[1], [⟨[2], [3]⟩], true⟩) :=
  ⟨cursor_exhaustion_latches.1 ⟨[1], [⟨[2], [3]⟩], false⟩ ⟨[1], [], true⟩
      (by decide),
    cursor_exhaustion_latches.2 ⟨[1], [⟨[2], [3]⟩], false⟩
      ⟨[1], [⟨[2], [3]⟩], true⟩ (by decide)⟩

/-- C8: `get` returns the stored value for a present key and `none` for
an absent key; an absent key is a normal "not found" result, never an
engine error/panic. -/
theorem get_point_lookup (db : DB) (eng : Engine) (key : Bytes)
    (hg : eng.getOk = true) :
    (∀ v, lookupKey db.store key = some v → db.get eng key = some (some v)) ∧
    (lookupKey db.store key = none → db.get eng key = some none) ∧
    db.get eng key ≠ none := by
  refine ⟨?_, ?_, ?_⟩
  · intro v hv
    rw [DB.get, if_pos hg, hv]
  · intro hv
    rw [DB.get, if_pos hg, hv]
  · rw [DB.get, if_pos hg]
    simp

/-- Witness for C8 at a present and (through the lemma's clauses) an
absent key of the sample store. -/
theorem get_point_lookup_witness :
    engOK.getOk = true ∧
    ((∀ v, lookupKey roDB.store [99] = some v →
      roDB.get engOK [99] = some (some v)) ∧
    (lookupKey roDB.store [99] = none → roDB.get engOK [99] = some none) ∧
    roDB.get engOK [99] ≠ none) :=
  ⟨rfl, get_point_lookup roDB engOK [99] rfl⟩

/-- C9: opening a handle in read-only mode over a directory whose
sentinel record is absent verifies compatibility silently (no panic),
writes nothing (the internal `put` is a read-only no-op), and leaves the
directory unmarked. -/
theorem readonly_open_unmarked_silent (onDisk : Store) (config : Config)
    (eng : Engine) (hro : config.read_only = true) (hg : eng.getOk = true)
    (habs : lookupKey onDisk sentinelKey = none) :
    ∃ d, DB.openDB onDisk config eng = some d ∧ d.store = onDisk ∧
      lookupKey d.store sentinelKey = none ∧ d.read_only_mode = true := by
  refine ⟨⟨onDisk, config.read_only, config, true⟩, ?_, rfl, habs, hro⟩
  simp [DB.openDB, DB.verify_compatibility, DB.get, hg, habs, DB.put, hro]

/-- Witness for C9: read-only open over an empty (unmarked) directory,
with every mutating engine call set to fail. -/
theorem readonly_open_unmarked_silent_witness :
    (roConfig.read_only = true ∧ engOK.getOk = true ∧
      lookupKey ([] : Store) sentinelKey = none) ∧
    (∃ d, DB.openDB [] roConfig engOK = some d ∧ d.store = [] ∧
      lookupKey d.store sentinelKey = none ∧ d.read_only_mode = true) :=
  ⟨⟨rfl, rfl, rfl⟩, readonly_open_unmarked_silent [] roConfig engOK rfl rfl rfl⟩

/-- C10: the reverse cursor's advance never reaches the key/value
extraction with an invalid position (its unwraps cannot fail, so `next`
never panics); and when the initial seek finds no key ≤ `pfx_max` (e.g.
nothing in the store is ≤ the bound), every advance yields nothing. -/
theorem reverse_next_no_panic :
    (∀ s : ReverseScanIterator, s.next ≠ none) ∧
    (∀ (db : DB) (pfxA pfxMax : Bytes),
      db.store.filter (fun p => lexLe p.1 pfxMax) = [] →
      (db.iter_scan_reverse pfxA pfxMax).next =
        some (none, db.iter_scan_reverse pfxA pfxMax)) := by
  constructor
  · intro s
    rw [ReverseScanIterator.next]
    by_cases hd : (s.done || s.iter.isEmpty) = true
    · rw [if_pos hd]
      simp
    · rw [if_neg hd]
      cases hiter : s.iter with
      | nil =>
        exfalso
        apply hd
        rw [hiter]
        simp
      | cons row rest =>
        dsimp only [List.head?_cons, List.tail_cons]
        by_cases hs : startsWithB row.key s.pfx = true <;> simp [hs]
  · intro db pA pM hemp
    have hseek : seekForPrev db.store pM = [] := by
      rw [seekForPrev, hemp]
      rfl
    rw [ReverseScanIterator.next]
    simp [DB.iter_scan_reverse, hseek]

/-- Witness for C10's bounded part: an empty store. -/
theorem reverse_next_no_panic_witness :
    (([] : Store).filter (fun p => lexLe p.1 [5]) = []) ∧
    ((⟨[], true, roConfig, true⟩ : DB).iter_scan_reverse [1] [5]).next =
      some (none, (⟨[], true, roConfig, true⟩ : DB).iter_scan_reverse [1] [5]) :=
  ⟨rfl, reverse_next_no_panic.2 ⟨[], true, roConfig, true⟩ [1] [5] rfl⟩

end ElectrsDB
